import Mathlib

/-!
# Verification of the figma-code-agent installer

This file is a shallow embedding of the deployment/lifecycle engine of the
`figma-code-agent` repository: the npx installer `bin/install.js`
(target resolution, source validation, content-transforming copy, version
ledger, uninstaller) and the manual symlink installer `install.sh`.

Strings are modelled as `List Char` (`Str`).  Directories are modelled as
association lists from file names to file contents; a missing directory is
`none`, an existing directory is `some entries`.
-/

namespace FCA

abbrev Str := List Char

/-- `SKILL_NAMES` from `bin/install.js`: the ten declared command names. -/
def SKILL_NAMES : List Str :=
  ["build-plugin".data, "build-codegen-plugin".data, "build-importer".data,
   "build-token-pipeline".data, "ref-layout".data, "ref-react".data, "ref-html".data,
   "ref-tokens".data, "ref-payload-block".data, "audit-plugin".data]

/-- Lookup of a file name in a directory listing (association list). -/
def lookupE {α : Type} (l : List (Str × α)) (k : Str) : Option α :=
  match l with
  | [] => none
  | p :: rest => if p.1 = k then some p.2 else lookupE rest k

/-- Writing a file into a directory listing: overwrite if present, append if not. -/
def setEntry {α : Type} (l : List (Str × α)) (k : Str) (v : α) : List (Str × α) :=
  match l with
  | [] => [(k, v)]
  | p :: rest => if p.1 = k then (k, v) :: rest else p :: setEntry rest k v

theorem lookupE_setEntry_self {α : Type} (l : List (Str × α)) (k : Str) (v : α) :
    lookupE (setEntry l k v) k = some v := by
  induction l with
  | nil => simp [setEntry, lookupE]
  | cons p rest ih =>
    by_cases h : p.1 = k
    · simp [setEntry, lookupE, h]
    · simp [setEntry, lookupE, h, ih]

theorem lookupE_setEntry_ne {α : Type} (l : List (Str × α)) (k k' : Str) (v : α)
    (h : k' ≠ k) : lookupE (setEntry l k v) k' = lookupE l k' := by
  induction l with
  | nil =>
    simp only [setEntry, lookupE]
    rw [if_neg (fun hh : k = k' => h hh.symm)]
  | cons p rest ih =>
    by_cases hp : p.1 = k
    · simp [setEntry, lookupE, hp, Ne.symm h, h]
    · by_cases hp' : p.1 = k'
      · simp [setEntry, lookupE, hp, hp', h]
      · simp [setEntry, lookupE, hp, hp', ih]

/-! ## Target resolution (`bin/install.js` lines 78-101, 385, 399) -/

/-- `path.join(a, b)` for an absolute directory `a` without a trailing slash
and a relative component `b` (the only shape the installer joins). -/
def pathJoin (a b : Str) : Str := a ++ '/' :: b

/-- `getGlobalBase()`: `path.join(os.homedir(), '.claude')`. -/
def getGlobalBase (home : Str) : Str := pathJoin home ".claude".data

/-- `getLocalBase()`: `path.join(process.cwd(), '.claude')`. -/
def getLocalBase (cwd : Str) : Str := pathJoin cwd ".claude".data

/-- `getKnowledgeRefPath(base)`: the addressing prefix used to rewrite
`@knowledge/` references.  The source checks `base.startsWith(home)`. -/
def getKnowledgeRefPath (home base : Str) : Str :=
  if home.isPrefixOf base then "~/.claude/fca/knowledge".data
  else ".claude/fca/knowledge".data

/-- Mode-to-base resolution as performed by `main()`:
`mode === 'local' ? getLocalBase() : getGlobalBase()` (lines 385 and 399).
There is no error case: every mode value resolves to one of the two roots. -/
def resolveBase (mode home cwd : Str) : Str :=
  if mode = "local".data then getLocalBase cwd else getGlobalBase home

/-! ## The content transform (`copyWithPathReplacement`, lines 116-123) -/

/-- Recursion worker for `replaceAll`, structurally recursive on a fuel
argument.  Whenever `s.length ≤ fuel` the fuel-exhaustion branch is
unreachable, because each step consumes at least one character. -/
def replaceAllFuel (pat rep : Str) : Nat → Str → Str
  | _, [] => []
  | 0, s => s
  | Nat.succ fuel, c :: rest =>
    if pat ≠ [] ∧ pat.isPrefixOf (c :: rest) then
      rep ++ replaceAllFuel pat rep fuel (List.drop pat.length (c :: rest))
    else
      c :: replaceAllFuel pat rep fuel rest

/-- JavaScript `content.replaceAll(pat, rep)` for a non-empty string pattern:
left-to-right, non-overlapping replacement of every occurrence.
(When `pat = []` the source never calls it; we return the input unchanged.) -/
def replaceAll (pat rep s : Str) : Str := replaceAllFuel pat rep s.length s

/-- The content loop of `copyWithPathReplacement`:
`for (const [search, replace] of replacements) content = content.replaceAll(...)`. -/
def copyTransform (replacements : List (Str × Str)) (content : Str) : Str :=
  replacements.foldl (fun acc p => replaceAll p.1 p.2 acc) content

/-- The literal marker rewritten inside command documents. -/
def marker : Str := "@knowledge/".data

/-- The replacement text `@${knowledgeRefPath}/` built in `install()` (line 131). -/
def refReplacement (pfx : Str) : Str := '@' :: (pfx ++ ['/'])

/-- The `replacements` array built in `install()` (lines 130-132). -/
def installReplacements (pfx : Str) : List (Str × Str) := [(marker, refReplacement pfx)]

/-- Does `pat` occur as a contiguous substring of `s`? -/
def hasSub (pat : Str) : Str → Bool
  | [] => pat.isEmpty
  | c :: rest => pat.isPrefixOf (c :: rest) || hasSub pat rest

/-- Recursion worker for `countOcc` (same fuel discipline as `replaceAllFuel`). -/
def countOccFuel (pat : Str) : Nat → Str → Nat
  | _, [] => 0
  | 0, _ => 0
  | Nat.succ fuel, c :: rest =>
    if pat ≠ [] ∧ pat.isPrefixOf (c :: rest) then
      1 + countOccFuel pat fuel (List.drop pat.length (c :: rest))
    else
      countOccFuel pat fuel rest

/-- Number of (left-to-right, non-overlapping) occurrences of `pat` in `s`. -/
def countOcc (pat s : Str) : Nat := countOccFuel pat s.length s

theorem isPrefixOf_true_iff (l₁ l₂ : Str) : l₁.isPrefixOf l₂ = true ↔ l₁ <+: l₂ := by
  induction l₁ generalizing l₂ with
  | nil => simp [List.isPrefixOf]
  | cons a x ih =>
    cases l₂ with
    | nil => simp [List.isPrefixOf]
    | cons b y =>
      simp only [List.isPrefixOf, Bool.and_eq_true, beq_iff_eq, List.cons_prefix_cons]
      exact and_congr Iff.rfl (ih y)

/-! ## JavaScript `String.prototype.trim` (used by `getInstalledVersion`, line 55) -/

/-- The ECMAScript WhiteSpace / LineTerminator set recognised by `trim`. -/
def isJsWhitespace (c : Char) : Bool :=
  c.toNat = 0x9 || c.toNat = 0xA || c.toNat = 0xB || c.toNat = 0xC || c.toNat = 0xD ||
  c.toNat = 0x20 || c.toNat = 0xA0 || c.toNat = 0x1680 ||
  (0x2000 ≤ c.toNat && c.toNat ≤ 0x200A) ||
  c.toNat = 0x2028 || c.toNat = 0x2029 || c.toNat = 0x202F || c.toNat = 0x205F ||
  c.toNat = 0x3000 || c.toNat = 0xFEFF

def trimStart (s : Str) : Str := s.dropWhile isJsWhitespace

def trimEnd (s : Str) : Str := (s.reverse.dropWhile isJsWhitespace).reverse

/-- JavaScript `s.trim()`. -/
def jsTrim (s : Str) : Str := trimEnd (trimStart s)

/-- `true` iff the string has neither a leading nor a trailing whitespace char. -/
def noSurroundWS (v : Str) : Bool :=
  (match v.head? with | none => true | some c => !isJsWhitespace c) &&
  (match v.getLast? with | none => true | some c => !isJsWhitespace c)

/-! ## Knowledge file discovery (`getKnowledgeFiles`, lines 109-114) -/

/-- JavaScript `f.endsWith('.md')`. -/
def endsWithMd (f : Str) : Bool := ".md".data.isSuffixOf f

/-- Lexicographic order on strings by code point (JS default `Array.sort`
comparison restricted to the BMP file names the installer handles). -/
def strLe (a b : Str) : Bool :=
  match a, b with
  | [], _ => true
  | _ :: _, [] => false
  | c :: x, d :: y => if c = d then strLe x y else decide (c < d)

def insertSorted (a : Str) : List Str → List Str
  | [] => [a]
  | b :: t => if strLe a b then a :: b :: t else b :: insertSorted a t

/-- Sorting as JS `Array.prototype.sort` (insertion sort; a permutation
in ascending `strLe` order). -/
def sortStrs (l : List Str) : List Str := l.foldr insertSorted []

/-- The source tree the installer reads from (`PKG_ROOT`). -/
structure SrcState where
  /-- For each declared name, the content of `skills/<name>/SKILL.md` when
  that file exists (`fs.existsSync` / `fs.readFileSync`). -/
  skills : List (Str × Str)
  /-- Directory listing of `PKG_ROOT/knowledge`: file name to content. -/
  knowledge : List (Str × Str)

/-- `getKnowledgeFiles()`: `readdirSync(knowledgeDir).filter(f => f.endsWith('.md')
&& f !== 'README.md').sort()`. -/
def getKnowledgeFiles (src : SrcState) : List Str :=
  sortStrs ((src.knowledge.map Prod.fst).filter
    (fun f => endsWithMd f && !(decide (f = "README.md".data))))

/-! ## Destination state for the copy strategy -/

/-- The destination tree under a resolved `base`.  `commands` is the listing of
`<base>/commands/fca`, `knowledge` of `<base>/fca/knowledge` (in both, `none`
means the directory does not exist).  `version` is the content of
`<base>/fca/.version` when present.  `fcaOther` lists the entries of
`<base>/fca` other than `knowledge` and `.version`, and `fcaDirExists` records
whether `<base>/fca` itself exists. -/
structure DestState where
  commands : Option (List (Str × Str))
  knowledge : Option (List (Str × Str))
  version : Option Str
  fcaOther : List Str
  fcaDirExists : Bool

/-! ## Version ledger (lines 48-74) -/

/-- `getInstalledVersion(base)`: `readFileSync(versionFile, 'utf-8').trim()`,
`null` on any read failure (absence included). -/
def getInstalledVersion (d : DestState) : Option Str := d.version.map jsTrim

/-- `writeVersion(base, version)`: `ensureDir` then write the string verbatim. -/
def writeVersion (d : DestState) (v : Str) : DestState :=
  { d with version := some v, fcaDirExists := true }

/-- `removeVersion(base)`: unlink the ledger, ignoring absence. -/
def removeVersion (d : DestState) : DestState := { d with version := none }

/-! ## `install(base)` (lines 127-218) -/

inductive InstallResult
  /-- `process.exit(1)` after printing one `ERROR: Missing ...` line per
  missing source file: `report` is that list of missing paths. -/
  | aborted (report : List Str)
  /-- Successful completion with the two summary counts. -/
  | ok (skillCount knowledgeCount : Nat)

def InstallResult.exitCode : InstallResult → Nat
  | .aborted _ => 1
  | .ok _ _ => 0

/-- `install(base)`.  Validation (lines 151-175) collects every missing source
path and exits non-zero before any write; otherwise the command documents are
transformed and written, the knowledge files byte-copied, and the ledger
written last. -/
def install (pkgVersion home base : Str) (src : SrcState) (d : DestState) :
    DestState × InstallResult :=
  let pfx := getKnowledgeRefPath home base
  let replacements := installReplacements pfx
  let missingSkills := SKILL_NAMES.filter (fun n => (lookupE src.skills n).isNone)
  let knowledgeFiles := getKnowledgeFiles src
  let missingKnowledge := knowledgeFiles.filter (fun f => (lookupE src.knowledge f).isNone)
  let report :=
    missingSkills.map (fun n => "skills/".data ++ n ++ "/SKILL.md".data) ++
    missingKnowledge.map (fun f => "knowledge/".data ++ f)
  if missingSkills.length + missingKnowledge.length > 0 then
    (d, .aborted report)
  else
    let newCommands := SKILL_NAMES.foldl
      (fun dir n => setEntry dir (n ++ ".md".data)
        (copyTransform replacements ((lookupE src.skills n).getD [])))
      (d.commands.getD [])
    let newKnowledge := knowledgeFiles.foldl
      (fun dir f => setEntry dir f ((lookupE src.knowledge f).getD []))
      (d.knowledge.getD [])
    let d1 : DestState :=
      { d with commands := some newCommands, knowledge := some newKnowledge }
    (writeVersion d1 pkgVersion, .ok SKILL_NAMES.length knowledgeFiles.length)

/-! ## `uninstall(base)` (lines 222-271) -/

structure UninstallRun where
  state : DestState
  removed : Nat

/-- `uninstall(base)`: unlink every file listed in the commands directory and
remove it; delete the ledger; unlink every file in the knowledge directory and
remove it; finally remove the parent `fca` directory only when it is empty. -/
def uninstall (d : DestState) : UninstallRun :=
  let removedCommands := match d.commands with
    | some entries => entries.length
    | none => 0
  let d1 : DestState := { d with commands := none }
  let d2 := removeVersion d1
  match d.knowledge with
  | some entries =>
    let d3 : DestState := { d2 with knowledge := none }
    let d4 := if d3.fcaOther.isEmpty then { d3 with fcaDirExists := false } else d3
    ⟨d4, removedCommands + entries.length⟩
  | none => ⟨d2, removedCommands⟩

/-! ## The manual symlink installer (`install.sh`) -/

/-- What occupies a command destination path
`~/.claude/skills/fca--<name>/SKILL.md`: nothing, a symlink (with its
`readlink` target), or a regular file. -/
inductive LinkDest
  | absent
  | symlinkTo (target : Str)
  | regularFile
deriving DecidableEq

/-- The per-skill destination directory `~/.claude/skills/fca--<name>`:
whether it exists, what occupies its `SKILL.md` entry, and whether it holds
any other entries. -/
structure SkillDir where
  dirExists : Bool
  link : LinkDest
  hasOther : Bool
deriving DecidableEq

def emptySkillDir : SkillDir := ⟨false, .absent, false⟩

def getDir (st : List (Str × SkillDir)) (n : Str) : SkillDir :=
  (lookupE st n).getD emptySkillDir

/-- Output of one loop iteration; the counters mirror the script variables
`installed`, `skipped` and `removed`, and `warnings` abstracts the `WARNING`
echo lines. -/
structure StepOut where
  installed : Nat
  skipped : Nat
  removed : Nat
  warnings : List Str
deriving DecidableEq

/-- `source_file="${SCRIPT_DIR}/skills/${name}/SKILL.md"`. -/
def sourceFile (scriptDir n : Str) : Str :=
  scriptDir ++ "/skills/".data ++ n ++ "/SKILL.md".data

/-- The drift warning echoed at lines 183-185 of `install.sh`. -/
def driftWarning (n cur : Str) : Str :=
  "WARNING: ".data ++ n ++ " exists but points to: ".data ++ cur

/-- The regular-file warning echoed at lines 198-199 of `install.sh`. -/
def fileWarning (n : Str) : Str :=
  "WARNING: ".data ++ n ++ " exists as a regular file (not a symlink).".data

/-- The non-empty-directory warning echoed at line 119 of `install.sh`. -/
def notEmptyWarning (n : Str) : Str :=
  "Warning: ".data ++ n ++ " is not empty, skipping".data

/-- One iteration of the install loop (lines 162-215 of `install.sh`). -/
def installStep (force dryRun : Bool) (n src : Str) (d : SkillDir) :
    SkillDir × StepOut :=
  match d.link with
  | .symlinkTo cur =>
    if cur = src then
      (d, ⟨0, 1, 0, []⟩)
    else if force then
      if dryRun then (d, ⟨1, 0, 0, []⟩)
      else ({ d with link := .symlinkTo src, dirExists := true }, ⟨1, 0, 0, []⟩)
    else
      (d, ⟨0, 1, 0, [driftWarning n cur]⟩)
  | .regularFile =>
    if force then
      if dryRun then (d, ⟨1, 0, 0, []⟩)
      else ({ d with link := .symlinkTo src, dirExists := true }, ⟨1, 0, 0, []⟩)
    else
      (d, ⟨0, 1, 0, [fileWarning n]⟩)
  | .absent =>
    if dryRun then (d, ⟨1, 0, 0, []⟩)
    else ({ d with link := .symlinkTo src, dirExists := true }, ⟨1, 0, 0, []⟩)

/-- One iteration of the uninstall loop (lines 101-124 of `install.sh`):
`rm` only when the destination is a symlink, then `rmdir` which succeeds only
on an empty directory. -/
def uninstallStep (dryRun : Bool) (n : Str) (d : SkillDir) : SkillDir × StepOut :=
  match d.link with
  | .symlinkTo _ =>
    if dryRun then (d, ⟨0, 0, 1, []⟩)
    else ({ dirExists := d.hasOther, link := .absent, hasOther := d.hasOther }, ⟨0, 0, 1, []⟩)
  | .regularFile =>
    if d.dirExists then
      if dryRun then (d, ⟨0, 0, 0, []⟩)
      else (d, ⟨0, 0, 0, [notEmptyWarning n]⟩)
    else (d, ⟨0, 0, 0, []⟩)
  | .absent =>
    if d.dirExists then
      if dryRun then (d, ⟨0, 0, 0, []⟩)
      else if d.hasOther then (d, ⟨0, 0, 0, [notEmptyWarning n]⟩)
      else ({ d with dirExists := false }, ⟨0, 0, 0, []⟩)
    else (d, ⟨0, 0, 0, []⟩)

/-- The per-skill loop shared by both modes of `install.sh`: process the names
in order, updating each name's destination directory and collecting outputs. -/
def runSteps (f : Str → SkillDir → SkillDir × StepOut) :
    List Str → List (Str × SkillDir) → List StepOut →
    List (Str × SkillDir) × List StepOut
  | [], st, acc => (st, acc)
  | n :: rest, st, acc =>
    let r := f n (getDir st n)
    runSteps f rest (setEntry st n r.1) (acc ++ [r.2])

/-- Result of one run of `install.sh`. -/
structure ShRun where
  state : List (Str × SkillDir)
  outs : List StepOut
  exitCode : Nat

def ShRun.warnings (r : ShRun) : List Str := (r.outs.map StepOut.warnings).flatten

/-- Install mode of `install.sh` (lines 135-239): validate that every
`skills/<name>/SKILL.md` exists (`exit 1` before touching anything when one is
missing), then run the loop; the script prints a summary and finishes with
exit status 0. -/
def installSh (force dryRun : Bool) (scriptDir : Str) (srcPresent : List Str)
    (st : List (Str × SkillDir)) : ShRun :=
  if (SKILL_NAMES.filter (fun n => !(decide (n ∈ srcPresent)))).length > 0 then
    ⟨st, [], 1⟩
  else
    ⟨(runSteps (fun n d => installStep force dryRun n (sourceFile scriptDir n) d)
        SKILL_NAMES st []).1,
     (runSteps (fun n d => installStep force dryRun n (sourceFile scriptDir n) d)
        SKILL_NAMES st []).2, 0⟩

/-- Uninstall mode of `install.sh` (lines 96-133); the script ends with
`exit 0`. -/
def uninstallSh (dryRun : Bool) (st : List (Str × SkillDir)) : ShRun :=
  ⟨(runSteps (fun n d => uninstallStep dryRun n d) SKILL_NAMES st []).1,
   (runSteps (fun n d => uninstallStep dryRun n d) SKILL_NAMES st []).2, 0⟩

theorem shRun_state_mk (a : List (Str × SkillDir)) (b : List StepOut) (c : Nat) :
    (ShRun.mk a b c).state = a := rfl

theorem shRun_outs_mk (a : List (Str × SkillDir)) (b : List StepOut) (c : Nat) :
    (ShRun.mk a b c).outs = b := rfl

/-! ### Loop invariants -/

theorem getDir_setEntry_self (st : List (Str × SkillDir)) (n : Str) (d : SkillDir) :
    getDir (setEntry st n d) n = d := by
  simp [getDir, lookupE_setEntry_self]

theorem getDir_setEntry_ne (st : List (Str × SkillDir)) (n n' : Str) (d : SkillDir)
    (h : n' ≠ n) : getDir (setEntry st n d) n' = getDir st n' := by
  simp [getDir, lookupE_setEntry_ne _ _ _ _ h]

theorem runSteps_get_notMem (f : Str → SkillDir → SkillDir × StepOut)
    (names : List Str) (st : List (Str × SkillDir)) (acc : List StepOut) (n : Str)
    (h : n ∉ names) : getDir (runSteps f names st acc).1 n = getDir st n := by
  induction names generalizing st acc with
  | nil => rfl
  | cons m rest ih =>
    have hnm : n ≠ m := by rintro rfl; exact h (List.mem_cons_self ..)
    simp only [runSteps]
    rw [ih _ _ (fun hm => h (List.mem_cons_of_mem _ hm)), getDir_setEntry_ne _ _ _ _ hnm]

theorem runSteps_acc_mono (f : Str → SkillDir → SkillDir × StepOut)
    (names : List Str) (st : List (Str × SkillDir)) (acc : List StepOut)
    (o : StepOut) (h : o ∈ acc) : o ∈ (runSteps f names st acc).2 := by
  induction names generalizing st acc with
  | nil => exact h
  | cons m rest ih =>
    simp only [runSteps]
    exact ih _ _ (List.mem_append_left _ h)

/-- Processing a `Nodup` name list touches each name exactly once: the final
directory for `n` is the step applied to its initial directory, and that
step's output is among the collected outputs. -/
theorem runSteps_spec (f : Str → SkillDir → SkillDir × StepOut)
    (names : List Str) (hnd : names.Nodup) (n : Str) (hn : n ∈ names)
    (st : List (Str × SkillDir)) (acc : List StepOut) :
    getDir (runSteps f names st acc).1 n = (f n (getDir st n)).1 ∧
    (f n (getDir st n)).2 ∈ (runSteps f names st acc).2 := by
  induction names generalizing st acc with
  | nil => cases hn
  | cons m rest ih =>
    rcases List.mem_cons.mp hn with rfl | hrest
    · have hnotin : n ∉ rest := (List.nodup_cons.mp hnd).1
      constructor
      · simp only [runSteps]
        rw [runSteps_get_notMem _ _ _ _ _ hnotin, getDir_setEntry_self]
      · simp only [runSteps]
        exact runSteps_acc_mono _ _ _ _ _
          (List.mem_append_right _ (List.mem_singleton_self _))
    · have hnd' := (List.nodup_cons.mp hnd).2
      have hnm : n ≠ m := by
        rintro rfl; exact (List.nodup_cons.mp hnd).1 hrest
      have := ih hnd' hrest (setEntry st m (f m (getDir st m)).1)
        (acc ++ [(f m (getDir st m)).2])
      rw [getDir_setEntry_ne _ _ _ _ hnm] at this
      simpa only [runSteps] using this

theorem skillNames_nodup : SKILL_NAMES.Nodup := by decide

/-! ## Claim C1 -/

/-- **C1** (code bug witness): in local mode with a working directory under the
user's home directory — here `home = /home/user`, `cwd = /home/user/project` —
`getKnowledgeRefPath` returns the home-relative form `~/.claude/fca/knowledge`,
not the working-directory-relative form `.claude/fca/knowledge` claimed by the
spec and by the function's own comment, because the resolved local base
`/home/user/project/.claude` starts with the home path. -/
theorem c1_local_install_under_home_gets_home_relative_refpath :
    getKnowledgeRefPath "/home/user".data (getLocalBase "/home/user/project".data)
      = "~/.claude/fca/knowledge".data ∧
    "~/.claude/fca/knowledge".data ≠ ".claude/fca/knowledge".data := by
  decide

/-! ## Claim C7 -/

/-- **C7** (counterexample): for the mode value `"bogus"`, which is neither
`global` nor `local`, resolution does not fail with an `InvalidMode` error —
it silently resolves to the global root. -/
theorem c7_counterexample :
    resolveBase "bogus".data "/home/user".data "/work".data
      = getGlobalBase "/home/user".data ∧
    resolveBase "bogus".data "/home/user".data "/work".data
      ≠ getLocalBase "/work".data := by
  decide

/-- **C7** (amended): resolution is pure and total over all mode values and
never errors; every mode value other than `local` (including `global` and any
invalid value) resolves to the global root, and `local` resolves to the
working-directory root. -/
theorem c7_amended (mode home cwd : Str) :
    (mode ≠ "local".data → resolveBase mode home cwd = getGlobalBase home) ∧
    resolveBase "local".data home cwd = getLocalBase cwd := by
  constructor
  · intro h
    simp [resolveBase, h]
  · simp [resolveBase]

theorem c7_amended_witness :
    resolveBase "global".data "/h".data "/w".data = getGlobalBase "/h".data :=
  (c7_amended "global".data "/h".data "/w".data).1 (by decide)

/-! ## Claim C2 -/

/-- A commands directory holding one file the installer never deployed. -/
def c2state : DestState :=
  ⟨some [("user-notes.txt".data, "keep me".data)], none, none, [], true⟩

/-- **C2** (counterexample): `user-notes.txt` sits in the command-root, is not
one of the deployed command names (`<name>.md`), yet `uninstall` deletes it —
the whole commands directory is removed, file by file, regardless of names. -/
theorem c2_counterexample :
    ("user-notes.txt".data ∉ SKILL_NAMES.map (fun n => n ++ ".md".data)) ∧
    lookupE (c2state.commands.getD []) "user-notes.txt".data = some "keep me".data ∧
    (uninstall c2state).state.commands = none := by
  decide

/-- **C2** (amended): the uninstaller removes *every* file inside the resolved
command-root and knowledge-root directories, whether or not it deployed them;
what it preserves are the files *outside* those two directories (the other
entries of the `fca` parent directory), and it prunes the `fca` parent only
when that directory is empty after artifact removal. -/
theorem c2_amended (d : DestState) :
    (uninstall d).state.commands = none ∧
    (uninstall d).state.knowledge = none ∧
    (uninstall d).state.fcaOther = d.fcaOther ∧
    ((uninstall d).state.fcaDirExists = false →
      d.fcaDirExists = false ∨ d.fcaOther = []) := by
  unfold uninstall removeVersion
  cases hk : d.knowledge with
  | none =>
    simp
    exact fun h => Or.inl h
  | some entries =>
    by_cases he : d.fcaOther.isEmpty
    · simp [he, List.isEmpty_iff.mp he]
    · simp [he]
      exact fun h => Or.inl h

/-- A destination where the `fca` parent is empty after artifact removal. -/
def c2wstate : DestState :=
  ⟨none, some [("k.md".data, "x".data)], some "1".data, [], true⟩

theorem c2_amended_witness : c2wstate.fcaDirExists = false ∨ c2wstate.fcaOther = [] :=
  (c2_amended c2wstate).2.2.2 (by decide)

/-! ## Claim C8 -/

/-- A destination where only the ledger file exists. -/
def c8state : DestState := ⟨none, none, some "1.2.3".data, [], true⟩

/-- **C8** (counterexample): with only the ledger present, `uninstall` deletes
the ledger file (one real file removed) yet reports `removed = 0` — and hence
prints "Nothing to remove", although something was installed here. -/
theorem c8_counterexample :
    c8state.version.isSome = true ∧
    (uninstall c8state).state.version = none ∧
    (uninstall c8state).removed = 0 := by
  decide

/-- Number of files in an optional directory listing. -/
def dirCount : Option (List (Str × Str)) → Nat
  | none => 0
  | some l => l.length

/-- **C8** (amended): the reported `removed` count equals the number of files
deleted from the command-root plus the number deleted from the knowledge-root;
the ledger marker file, though deleted, is never counted.  Zero remains a
valid, non-error outcome. -/
theorem c8_amended (d : DestState) :
    (uninstall d).removed = dirCount d.commands + dirCount d.knowledge := by
  unfold uninstall
  cases d.commands <;> cases d.knowledge <;>
    simp [dirCount, removeVersion]

/-! ## Claim C3 -/

/-- **C3**: whenever at least one declared command source file
(`skills/<name>/SKILL.md`) is missing, `install` performs no filesystem
mutation — the destination state is returned unchanged, so no command file,
knowledge file, directory or ledger is written — the process exits non-zero,
and the failure report enumerates *every* missing declared source path, not
just the first one found. -/
theorem c3_validation_atomicity (pkgVersion home base : Str) (src : SrcState)
    (d : DestState) (n₀ : Str) (hn₀ : n₀ ∈ SKILL_NAMES)
    (hmiss : lookupE src.skills n₀ = none) :
    (install pkgVersion home base src d).1 = d ∧
    (install pkgVersion home base src d).2.exitCode ≠ 0 ∧
    ∃ report, (install pkgVersion home base src d).2 = .aborted report ∧
      ∀ n ∈ SKILL_NAMES, lookupE src.skills n = none →
        ("skills/".data ++ n ++ "/SKILL.md".data) ∈ report := by
  have hmem : n₀ ∈ SKILL_NAMES.filter (fun n => (lookupE src.skills n).isNone) :=
    List.mem_filter.mpr ⟨hn₀, by simp [hmiss]⟩
  have hcond : (SKILL_NAMES.filter (fun n => (lookupE src.skills n).isNone)).length
      + ((getKnowledgeFiles src).filter
          (fun f => (lookupE src.knowledge f).isNone)).length > 0 := by
    have := List.length_pos.mpr (List.ne_nil_of_mem hmem)
    omega
  simp only [install]
  rw [if_pos hcond]
  refine ⟨rfl, by simp [InstallResult.exitCode], _, rfl, ?_⟩
  intro n hn hnone
  exact List.mem_append_left _
    (List.mem_map_of_mem _ (List.mem_filter.mpr ⟨hn, by simp [hnone]⟩))

/-- An empty destination tree. -/
def emptyDest : DestState := ⟨none, none, none, [], false⟩

/-- A source tree from which every skill file is missing. -/
def c3src : SrcState := ⟨[], []⟩

theorem c3_witness :
    (install "1.0.0".data "/home/u".data "/home/u/.claude".data c3src emptyDest).1
        = emptyDest ∧
    (install "1.0.0".data "/home/u".data "/home/u/.claude".data c3src emptyDest).2.exitCode
        ≠ 0 :=
  let h := c3_validation_atomicity "1.0.0".data "/home/u".data "/home/u/.claude".data
    c3src emptyDest "build-plugin".data (by decide) (by decide)
  ⟨h.1, h.2.1⟩

/-! ## Claim C5 -/

theorem lookupE_isSome_of_mem_keys {α : Type} (l : List (Str × α)) (k : Str)
    (h : k ∈ l.map Prod.fst) : (lookupE l k).isSome = true := by
  induction l with
  | nil => simp at h
  | cons p t ih =>
    by_cases hp : p.1 = k
    · simp [lookupE, hp]
    · rw [List.map_cons] at h
      have hmem : k ∈ t.map Prod.fst := by
        rcases List.mem_cons.mp h with h1 | h2
        · exact absurd h1.symm hp
        · exact h2
      simp [lookupE, hp, ih hmem]

theorem mem_insertSorted (a x : Str) (l : List Str) :
    x ∈ insertSorted a l ↔ x = a ∨ x ∈ l := by
  induction l with
  | nil => simp [insertSorted]
  | cons b t ih =>
    by_cases h : strLe a b = true
    · simp [insertSorted, h]
    · simp [insertSorted, h, ih]
      tauto

theorem mem_sortStrs (l : List Str) (x : Str) : x ∈ sortStrs l ↔ x ∈ l := by
  induction l with
  | nil => simp [sortStrs]
  | cons a t ih =>
    show x ∈ insertSorted a (sortStrs t) ↔ _
    rw [mem_insertSorted]
    simp [ih]

theorem insertSorted_perm (a : Str) (l : List Str) : (insertSorted a l).Perm (a :: l) := by
  induction l with
  | nil => exact List.Perm.refl _
  | cons b t ih =>
    by_cases h : strLe a b = true
    · rw [show insertSorted a (b :: t) = a :: b :: t from by simp [insertSorted, h]]
    · rw [show insertSorted a (b :: t) = b :: insertSorted a t from by simp [insertSorted, h]]
      exact (ih.cons b).trans (List.Perm.swap a b t)

theorem sortStrs_perm (l : List Str) : (sortStrs l).Perm l := by
  induction l with
  | nil => exact List.Perm.refl _
  | cons a t ih => exact (insertSorted_perm a (sortStrs t)).trans (ih.cons a)

theorem nodup_getKnowledgeFiles (src : SrcState)
    (h : (src.knowledge.map Prod.fst).Nodup) : (getKnowledgeFiles src).Nodup :=
  ((sortStrs_perm _).nodup_iff).mpr (h.filter _)

theorem lookupE_foldl_setEntry_notMem {α : Type} (g : Str → α) (ks : List Str)
    (k : Str) : k ∉ ks →
    ∀ m : List (Str × α),
      lookupE (ks.foldl (fun acc f => setEntry acc f (g f)) m) k = lookupE m k := by
  induction ks with
  | nil => intro _ m; rfl
  | cons a t ih =>
    intro hk m
    have hka : k ≠ a := fun hh => hk (hh ▸ List.mem_cons_self ..)
    simp only [List.foldl_cons]
    rw [ih (fun hh => hk (List.mem_cons_of_mem _ hh)) _, lookupE_setEntry_ne _ _ _ _ hka]

theorem lookupE_foldl_setEntry_mem {α : Type} (g : Str → α) (ks : List Str) :
    ks.Nodup → ∀ k ∈ ks, ∀ m : List (Str × α),
      lookupE (ks.foldl (fun acc f => setEntry acc f (g f)) m) k = some (g k) := by
  induction ks with
  | nil => intro _ k hk; cases hk
  | cons a t ih =>
    intro hnd k hk m
    rcases List.mem_cons.mp hk with rfl | ht
    · simp only [List.foldl_cons]
      rw [lookupE_foldl_setEntry_notMem _ _ _ (List.nodup_cons.mp hnd).1 _,
        lookupE_setEntry_self]
    · simp only [List.foldl_cons]
      exact ih (List.nodup_cons.mp hnd).2 k ht _

/-- A source knowledge directory holding a non-`.md` file. -/
def c5src : SrcState :=
  ⟨[], [("figma-api-rest.md".data, "alpha".data), ("user-notes.txt".data, "beta".data),
        ("README.md".data, "index".data)]⟩

/-- **C5** (counterexample): `user-notes.txt` is present in the source
knowledge directory and is not the index file, yet it is not discovered as a
knowledge artifact — `getKnowledgeFiles` keeps only `.md` files. -/
theorem c5_counterexample :
    "user-notes.txt".data ∈ c5src.knowledge.map Prod.fst ∧
    "user-notes.txt".data ≠ "README.md".data ∧
    "user-notes.txt".data ∉ getKnowledgeFiles c5src := by
  decide

/-- **C5** (amended): the set of knowledge artifacts deployed by install is
exactly the files of the source knowledge directory whose name ends in `.md`,
minus the single index file `README.md` — a non-`.md` file is not deployed —
and each discovered artifact is copied byte-for-byte to the knowledge-root. -/
theorem c5_amended (src : SrcState) :
    (∀ f : Str, f ∈ getKnowledgeFiles src ↔
      (f ∈ src.knowledge.map Prod.fst ∧ endsWithMd f = true ∧
        f ≠ "README.md".data)) ∧
    (∀ (pkgVersion home base : Str) (d : DestState),
      (src.knowledge.map Prod.fst).Nodup →
      (∀ n ∈ SKILL_NAMES, (lookupE src.skills n).isSome = true) →
      ∀ f ∈ getKnowledgeFiles src,
        lookupE (((install pkgVersion home base src d).1.knowledge).getD []) f
          = lookupE src.knowledge f) := by
  have hmemiff : ∀ f : Str, f ∈ getKnowledgeFiles src ↔
      (f ∈ src.knowledge.map Prod.fst ∧ endsWithMd f = true ∧
        f ≠ "README.md".data) := by
    intro f
    unfold getKnowledgeFiles
    rw [mem_sortStrs, List.mem_filter]
    simp [and_assoc]
  refine ⟨hmemiff, ?_⟩
  intro pkgVersion home base d hnd hskills f hf
  have hskillsFilter :
      SKILL_NAMES.filter (fun n => (lookupE src.skills n).isNone) = [] := by
    rw [List.filter_eq_nil_iff]
    intro n hn
    have := hskills n hn
    cases hx : lookupE src.skills n <;> simp_all
  have hknowFilter : (getKnowledgeFiles src).filter
      (fun g => (lookupE src.knowledge g).isNone) = [] := by
    rw [List.filter_eq_nil_iff]
    intro g hg
    have hkeys := ((hmemiff g).mp hg).1
    have := lookupE_isSome_of_mem_keys _ _ hkeys
    cases hx : lookupE src.knowledge g <;> simp_all
  have hcondneg : ¬((SKILL_NAMES.filter (fun n => (lookupE src.skills n).isNone)).length
      + ((getKnowledgeFiles src).filter
          (fun g => (lookupE src.knowledge g).isNone)).length > 0) := by
    rw [hskillsFilter, hknowFilter]
    simp
  simp only [install]
  rw [if_neg hcondneg]
  simp only [writeVersion, Option.getD_some]
  rw [lookupE_foldl_setEntry_mem _ _ (nodup_getKnowledgeFiles src hnd) f hf _]
  have := lookupE_isSome_of_mem_keys src.knowledge f ((hmemiff f).mp hf).1
  cases hx : lookupE src.knowledge f
  · rw [hx] at this
    cases this
  · simp

/-- A complete source tree: all ten skill files plus one knowledge file. -/
def fullSkills : List (Str × Str) :=
  SKILL_NAMES.map (fun n => (n, "doc @knowledge/x.md".data))

def c5wsrc : SrcState := ⟨fullSkills, [("x.md".data, "payload".data)]⟩

theorem c5_amended_witness :
    lookupE (((install "1".data "/h".data "/h/.claude".data c5wsrc emptyDest).1.knowledge).getD [])
      "x.md".data = lookupE c5wsrc.knowledge "x.md".data :=
  (c5_amended c5wsrc).2 "1".data "/h".data "/h/.claude".data emptyDest
    (by decide) (by decide) "x.md".data (by decide)

/-! ## Claim C9 -/

/-- Per-iteration safety of the symlink uninstaller: a regular file at the
destination is never touched, only symlink destinations lose their entry, and
the directory is removed only when empty (no regular file, no other entries). -/
theorem uninstallStep_safety (dryRun : Bool) (n : Str) (d : SkillDir) :
    (d.link = .regularFile → (uninstallStep dryRun n d).1 = d) ∧
    ((uninstallStep dryRun n d).1.link = .absent →
      d.link = .absent ∨ ∃ t, d.link = .symlinkTo t) ∧
    (d.dirExists = true → (uninstallStep dryRun n d).1.dirExists = false →
      d.hasOther = false ∧ d.link ≠ .regularFile) := by
  obtain ⟨de, lk, ho⟩ := d
  cases lk <;> cases dryRun <;> cases de <;> cases ho <;>
    simp [uninstallStep]

/-- **C9**: for every symlink-strategy uninstall run and every declared name,
a regular (non-symlink) file occupying the command destination survives the
run unchanged (its whole directory state is untouched); a destination can
become empty only if it was absent or held a symlink; and a skill's directory
is removed only when it was empty (no regular file at `SKILL.md`, no other
entries). -/
theorem c9_uninstall_preserves_regular_files (dryRun : Bool)
    (st : List (Str × SkillDir)) (n : Str) (hn : n ∈ SKILL_NAMES) :
    ((getDir st n).link = .regularFile →
      getDir (uninstallSh dryRun st).state n = getDir st n) ∧
    ((getDir (uninstallSh dryRun st).state n).link = .absent →
      (getDir st n).link = .absent ∨ ∃ t, (getDir st n).link = .symlinkTo t) ∧
    ((getDir st n).dirExists = true →
      (getDir (uninstallSh dryRun st).state n).dirExists = false →
      (getDir st n).hasOther = false ∧ (getDir st n).link ≠ .regularFile) := by
  have hrun := runSteps_spec (fun m d => uninstallStep dryRun m d)
    SKILL_NAMES skillNames_nodup n hn st []
  have hst : (uninstallSh dryRun st).state
      = (runSteps (fun m d => uninstallStep dryRun m d) SKILL_NAMES st []).1 := rfl
  rw [hst, hrun.1]
  exact uninstallStep_safety dryRun n (getDir st n)

/-- A destination where a regular file occupies one command destination. -/
def c9state : List (Str × SkillDir) :=
  [("build-importer".data, ⟨true, .regularFile, false⟩)]

theorem c9_witness :
    getDir (uninstallSh false c9state).state "build-importer".data
      = getDir c9state "build-importer".data :=
  (c9_uninstall_preserves_regular_files false c9state "build-importer".data
    (by decide)).1 (by decide)

/-! ## Claim C6 -/

/-- A destination where one command destination holds a drifted symlink. -/
def c6state : List (Str × SkillDir) :=
  [("build-plugin".data, ⟨true, .symlinkTo "/elsewhere/SKILL.md".data, false⟩)]

/-- **C6** (counterexample): with a drifted symlink and no force flag, the
run leaves the symlink untouched and reports the drift warning — but its exit
code is 0, not the non-zero code the claim asserts. -/
theorem c6_counterexample :
    getDir (installSh false false "/pkg".data SKILL_NAMES c6state).state
        "build-plugin".data
      = ⟨true, .symlinkTo "/elsewhere/SKILL.md".data, false⟩ ∧
    driftWarning "build-plugin".data "/elsewhere/SKILL.md".data
      ∈ (installSh false false "/pkg".data SKILL_NAMES c6state).warnings ∧
    (installSh false false "/pkg".data SKILL_NAMES c6state).exitCode = 0 := by
  decide

/-- **C6** (amended): for every symlink-strategy install run whose source
validation passes, without the force flag, a drifted symlink at a command
destination is left untouched and a warning naming the drift is reported —
but the process exit status is 0 (the script never reflects skipped drifts in
its exit code; only the printed summary reports them). -/
theorem c6_amended (scriptDir : Str) (srcPresent : List Str)
    (st : List (Str × SkillDir)) (n t : Str)
    (hval : ∀ m ∈ SKILL_NAMES, m ∈ srcPresent)
    (hn : n ∈ SKILL_NAMES)
    (hdrift : (getDir st n).link = .symlinkTo t)
    (hne : t ≠ sourceFile scriptDir n) :
    getDir (installSh false false scriptDir srcPresent st).state n = getDir st n ∧
    driftWarning n t ∈ (installSh false false scriptDir srcPresent st).warnings ∧
    (installSh false false scriptDir srcPresent st).exitCode = 0 := by
  have hfil : SKILL_NAMES.filter (fun m => !(decide (m ∈ srcPresent))) = [] := by
    rw [List.filter_eq_nil_iff]
    intro m hm
    simp [hval m hm]
  have hcondneg :
      ¬((SKILL_NAMES.filter (fun m => !(decide (m ∈ srcPresent)))).length > 0) := by
    rw [hfil]
    simp
  have hstep : installStep false false n (sourceFile scriptDir n) (getDir st n)
      = (getDir st n, ⟨0, 1, 0, [driftWarning n t]⟩) := by
    rcases hd : getDir st n with ⟨de, lk, ho⟩
    rw [hd] at hdrift
    simp only at hdrift
    subst hdrift
    simp [installStep, hne]
  have hrun := runSteps_spec
    (fun m d => installStep false false m (sourceFile scriptDir m) d)
    SKILL_NAMES skillNames_nodup n hn st []
  unfold installSh
  rw [if_neg hcondneg]
  refine ⟨?_, ?_, rfl⟩
  · rw [shRun_state_mk, hrun.1]
    show (installStep false false n (sourceFile scriptDir n) (getDir st n)).1
        = getDir st n
    rw [hstep]
  · have hout := hrun.2
    have heq : ((fun m d => installStep false false m (sourceFile scriptDir m) d)
        n (getDir st n)).2 = (⟨0, 1, 0, [driftWarning n t]⟩ : StepOut) := by
      show (installStep false false n (sourceFile scriptDir n) (getDir st n)).2 = _
      rw [hstep]
    rw [heq] at hout
    show driftWarning n t ∈
      ((ShRun.mk _ _ 0).outs.map StepOut.warnings).flatten
    rw [shRun_outs_mk]
    exact List.mem_flatten.mpr
      ⟨[driftWarning n t], List.mem_map_of_mem _ hout, List.mem_singleton_self _⟩

/-- A second drifted-symlink destination, used to instantiate `c6_amended`. -/
def c6wstate : List (Str × SkillDir) :=
  [("ref-layout".data, ⟨true, .symlinkTo "/old/SKILL.md".data, true⟩)]

theorem c6_amended_witness :
    getDir (installSh false false "/pkg2".data SKILL_NAMES c6wstate).state
        "ref-layout".data = getDir c6wstate "ref-layout".data ∧
    (installSh false false "/pkg2".data SKILL_NAMES c6wstate).exitCode = 0 :=
  let h := c6_amended "/pkg2".data SKILL_NAMES c6wstate "ref-layout".data
    "/old/SKILL.md".data (fun _ hm => hm) (by decide) (by decide) (by decide)
  ⟨h.1, h.2.2⟩

/-! ## Claim C4 -/

theorem hasSub_nil (pat : Str) (h : pat ≠ []) : hasSub pat [] = false := by
  cases pat with
  | nil => exact absurd rfl h
  | cons c x => rfl

theorem intercalate_single (sep x : Str) : List.intercalate sep [x] = x := by
  simp [List.intercalate]

theorem intercalate_cons₂ (sep x y : Str) (ys : List Str) :
    List.intercalate sep (x :: y :: ys) = x ++ sep ++ List.intercalate sep (y :: ys) := by
  simp [List.intercalate, List.intersperse]

theorem replaceAllFuel_nil (pat rep : Str) (fuel : Nat) :
    replaceAllFuel pat rep fuel [] = [] := by
  cases fuel <;> rfl

theorem replaceAllFuel_succ (pat rep : Str) (fuel : Nat) (c : Char) (rest : Str) :
    replaceAllFuel pat rep (fuel + 1) (c :: rest)
      = if pat ≠ [] ∧ pat.isPrefixOf (c :: rest) then
          rep ++ replaceAllFuel pat rep fuel (List.drop pat.length (c :: rest))
        else c :: replaceAllFuel pat rep fuel rest := rfl

/-- Characterisation of `replaceAllFuel` (for sufficient fuel): the input
splits as `intercalate pat parts` where no part contains the pattern, and the
output is exactly `intercalate rep parts` — every occurrence is replaced and
no other character is altered. -/
theorem replaceAllFuel_parts (pat rep : Str) (hpat : pat ≠ []) :
    ∀ (fuel : Nat) (s : Str), s.length ≤ fuel →
      ∃ parts : List Str, parts ≠ [] ∧
        s = List.intercalate pat parts ∧
        replaceAllFuel pat rep fuel s = List.intercalate rep parts ∧
        ∀ p ∈ parts, hasSub pat p = false := by
  intro fuel
  induction fuel with
  | zero =>
    intro s hs
    have hnil : s = [] := List.length_eq_zero.mp (Nat.le_zero.mp hs)
    subst hnil
    refine ⟨[[]], by simp, by simp [intercalate_single], ?_, ?_⟩
    · rw [replaceAllFuel_nil, intercalate_single]
    · intro p hp
      rw [List.mem_singleton.mp hp]
      exact hasSub_nil pat hpat
  | succ fuel ih =>
    intro s hs
    cases s with
    | nil =>
      refine ⟨[[]], by simp, by simp [intercalate_single], ?_, ?_⟩
      · rw [replaceAllFuel_nil, intercalate_single]
      · intro p hp
        rw [List.mem_singleton.mp hp]
        exact hasSub_nil pat hpat
    | cons c rest =>
      by_cases hp : pat.isPrefixOf (c :: rest) = true
      · have hpre : pat <+: (c :: rest) := (isPrefixOf_true_iff _ _).mp hp
        obtain ⟨t, ht⟩ := hpre
        have hdrop : List.drop pat.length (c :: rest) = t := by
          rw [← ht, List.drop_left]
        have hplen : 0 < pat.length := List.length_pos.mpr hpat
        have hlen : t.length ≤ fuel := by
          have h1 := congrArg List.length ht
          simp only [List.length_append, List.length_cons] at h1
          simp only [List.length_cons] at hs
          omega
        obtain ⟨parts, hne, hs1, hs2, hsub⟩ := ih t hlen
        refine ⟨[] :: parts, by simp, ?_, ?_, ?_⟩
        · cases parts with
          | nil => exact absurd rfl hne
          | cons p ps =>
            rw [intercalate_cons₂]
            simp only [List.nil_append]
            rw [← hs1]
            exact ht.symm
        · rw [replaceAllFuel_succ, if_pos ⟨hpat, hp⟩, hdrop]
          cases parts with
          | nil => exact absurd rfl hne
          | cons p ps =>
            rw [intercalate_cons₂]
            simp only [List.nil_append]
            rw [hs2]
        · intro p hp'
          rcases List.mem_cons.mp hp' with rfl | hmem
          · exact hasSub_nil pat hpat
          · exact hsub p hmem
      · have hcond : ¬(pat ≠ [] ∧ pat.isPrefixOf (c :: rest)) := fun hc => hp hc.2
        have hlen : rest.length ≤ fuel := by
          simp only [List.length_cons] at hs
          omega
        obtain ⟨parts, hne, hs1, hs2, hsub⟩ := ih rest hlen
        cases parts with
        | nil => exact absurd rfl hne
        | cons p ps =>
          have hp_pre : p <+: rest := by
            cases ps with
            | nil =>
              rw [intercalate_single] at hs1
              exact ⟨[], by rw [hs1]; simp⟩
            | cons q qs =>
              rw [intercalate_cons₂] at hs1
              exact ⟨pat ++ List.intercalate pat (q :: qs), by rw [hs1]; simp⟩
          refine ⟨(c :: p) :: ps, by simp, ?_, ?_, ?_⟩
          · cases ps with
            | nil =>
              rw [intercalate_single] at hs1
              rw [intercalate_single, hs1]
            | cons q qs =>
              rw [intercalate_cons₂] at hs1
              rw [intercalate_cons₂, hs1]
              simp
          · rw [replaceAllFuel_succ, if_neg hcond, hs2]
            cases ps with
            | nil => rw [intercalate_single, intercalate_single]
            | cons q qs =>
              rw [intercalate_cons₂, intercalate_cons₂]
              simp
          · intro x hx
            rcases List.mem_cons.mp hx with rfl | hmem
            · have hsubp : hasSub pat p = false := hsub p (List.mem_cons_self ..)
              show (pat.isPrefixOf (c :: p) || hasSub pat p) = false
              rw [hsubp, Bool.or_false]
              by_contra hb
              have hbt : pat.isPrefixOf (c :: p) = true := by
                revert hb
                cases pat.isPrefixOf (c :: p) <;> simp
              have h1 : pat <+: c :: p := (isPrefixOf_true_iff _ _).mp hbt
              have h2 : c :: p <+: c :: rest := List.cons_prefix_cons.mpr ⟨rfl, hp_pre⟩
              exact hp ((isPrefixOf_true_iff _ _).mpr (h1.trans h2))
            · exact hsub x (List.mem_cons_of_mem _ hmem)

theorem replaceAll_parts (pat rep : Str) (hpat : pat ≠ []) (s : Str) :
    ∃ parts : List Str, parts ≠ [] ∧ s = List.intercalate pat parts ∧
      replaceAll pat rep s = List.intercalate rep parts ∧
      ∀ p ∈ parts, hasSub pat p = false :=
  replaceAllFuel_parts pat rep hpat s.length s le_rfl

/-- The local-mode addressing prefix `.claude/fca/knowledge`. -/
def localPfx : Str := ".claude/fca/knowledge".data

/-- A command document containing the marker `@knowledge/foo.md` three times. -/
def c4doc : Str :=
  "Read @knowledge/foo.md then @knowledge/foo.md and @knowledge/foo.md".data

/-- **C4**: the content transform is an all-occurrences literal substitution:
for every document text and every addressing prefix, the input splits as
`intercalate marker parts` with no part containing the marker, and the output
is exactly `intercalate (refReplacement pfx) parts` — every `@knowledge/`
occurrence is replaced by `@<pfx>/` and no other character is altered.  In
particular, for the spec's example document containing the marker three times,
the local-mode output contains `@.claude/fca/knowledge/` exactly three times
and the literal `@knowledge/` zero times. -/
theorem c4_transform_correctness :
    (∀ (text pfx : Str),
      ∃ parts : List Str, parts ≠ [] ∧
        text = List.intercalate marker parts ∧
        copyTransform (installReplacements pfx) text
          = List.intercalate (refReplacement pfx) parts ∧
        ∀ p ∈ parts, hasSub marker p = false) ∧
    countOcc marker c4doc = 3 ∧
    countOcc (refReplacement localPfx)
      (copyTransform (installReplacements localPfx) c4doc) = 3 ∧
    countOcc marker (copyTransform (installReplacements localPfx) c4doc) = 0 := by
  refine ⟨?_, ?_, ?_, ?_⟩
  · intro text pfx
    exact replaceAll_parts marker (refReplacement pfx) (by decide) text
  · decide
  · decide
  · decide

theorem c4_witness :
    countOcc marker (copyTransform (installReplacements localPfx) c4doc) = 0 :=
  c4_transform_correctness.2.2.2

/-! ## Claim C10 -/

theorem dropWhile_cons_eq_self_iff (p : Char → Bool) (a : Char) (t : Str) :
    List.dropWhile p (a :: t) = a :: t ↔ p a = false := by
  cases hpa : p a
  · simp [List.dropWhile_cons, hpa]
  · rw [List.dropWhile_cons, hpa]
    simp only [if_true]
    constructor
    · intro h
      have hle := (List.dropWhile_suffix (l := t) p).sublist.length_le
      rw [h] at hle
      simp at hle
    · intro h
      simp at h

theorem dropWhile_eq_self_iff_head (p : Char → Bool) (l : Str) :
    List.dropWhile p l = l ↔
      (match l.head? with | none => True | some c => p c = false) := by
  cases l with
  | nil => simp
  | cons a t => exact dropWhile_cons_eq_self_iff p a t

theorem head_dropWhile_false (p : Char → Bool) (l : Str) (c : Char)
    (h : (List.dropWhile p l).head? = some c) : p c = false := by
  induction l with
  | nil => simp at h
  | cons a t ih =>
    rw [List.dropWhile_cons] at h
    by_cases hpa : p a
    · rw [if_pos hpa] at h
      exact ih h
    · rw [if_neg hpa, List.head?_cons] at h
      injection h with h2
      subst h2
      simpa using hpa

theorem trimStart_eq_self_iff (v : Str) :
    trimStart v = v ↔
      (match v.head? with | none => True | some c => isJsWhitespace c = false) :=
  dropWhile_eq_self_iff_head _ v

theorem trimEnd_eq_self_iff (v : Str) :
    trimEnd v = v ↔
      (match v.getLast? with | none => True | some c => isJsWhitespace c = false) := by
  have h1 : trimEnd v = v ↔ v.reverse.dropWhile isJsWhitespace = v.reverse := by
    unfold trimEnd
    constructor
    · intro h
      have h2 := congrArg List.reverse h
      simpa using h2
    · intro h
      rw [h, List.reverse_reverse]
  rw [h1, dropWhile_eq_self_iff_head, List.head?_reverse]

theorem trimStart_length_le (s : Str) : (trimStart s).length ≤ s.length :=
  (List.dropWhile_suffix isJsWhitespace).sublist.length_le

theorem trimEnd_length_le (s : Str) : (trimEnd s).length ≤ s.length := by
  unfold trimEnd
  simpa using (List.dropWhile_suffix (l := s.reverse) isJsWhitespace).sublist.length_le

theorem noSurroundWS_iff (v : Str) :
    noSurroundWS v = true ↔
      ((match v.head? with | none => True | some c => isJsWhitespace c = false) ∧
       (match v.getLast? with | none => True | some c => isJsWhitespace c = false)) := by
  unfold noSurroundWS
  rcases hh : v.head? with _ | c <;> rcases hl : v.getLast? with _ | c' <;> simp

theorem jsTrim_eq_self_iff (v : Str) : jsTrim v = v ↔ noSurroundWS v = true := by
  rw [noSurroundWS_iff]
  constructor
  · intro h
    have hlen1 : (trimEnd (trimStart v)).length ≤ (trimStart v).length :=
      trimEnd_length_le _
    have hlen2 : (trimStart v).length ≤ v.length := trimStart_length_le _
    have hlen0 : (jsTrim v).length = v.length := by rw [h]
    have hveq : (trimStart v).length = v.length := by
      unfold jsTrim at hlen0
      omega
    have hts : trimStart v = v :=
      (List.dropWhile_suffix isJsWhitespace).sublist.eq_of_length hveq
    have hte : trimEnd v = v := by
      have h2 := h
      unfold jsTrim at h2
      rw [hts] at h2
      exact h2
    exact ⟨(trimStart_eq_self_iff v).mp hts, (trimEnd_eq_self_iff v).mp hte⟩
  · rintro ⟨h1, h2⟩
    have hts : trimStart v = v := (trimStart_eq_self_iff v).mpr h1
    have hte : trimEnd v = v := (trimEnd_eq_self_iff v).mpr h2
    unfold jsTrim
    rw [hts, hte]

theorem trimEnd_isPrefix (w : Str) : trimEnd w <+: w := by
  obtain ⟨t, ht⟩ := List.dropWhile_suffix (l := w.reverse) isJsWhitespace
  refine ⟨t.reverse, ?_⟩
  have h2 := congrArg List.reverse ht
  simpa [trimEnd] using h2

theorem isPrefix_head?_eq (l w : Str) (c : Char) (h : l <+: w)
    (hc : l.head? = some c) : w.head? = some c := by
  obtain ⟨t, rfl⟩ := h
  cases l with
  | nil => simp at hc
  | cons a x =>
    rw [List.head?_cons] at hc
    simpa using hc

theorem noSurroundWS_jsTrim (s : Str) : noSurroundWS (jsTrim s) = true := by
  rw [noSurroundWS_iff]
  constructor
  · rcases hh : (jsTrim s).head? with _ | c
    · trivial
    · have hpre := trimEnd_isPrefix (trimStart s)
      have hhead : (trimStart s).head? = some c := isPrefix_head?_eq _ _ _ hpre hh
      exact head_dropWhile_false _ _ _ hhead
  · rcases hl : (jsTrim s).getLast? with _ | c
    · trivial
    · have h2 : (List.dropWhile isJsWhitespace (trimStart s).reverse).head? = some c := by
        have hrev : (jsTrim s).reverse
            = List.dropWhile isJsWhitespace (trimStart s).reverse := by
          simp [jsTrim, trimEnd]
        rw [← hrev, List.head?_reverse]
        exact hl
      exact head_dropWhile_false _ _ _ h2

/-- **C10**: the ledger write stores the version string verbatim and the
ledger read strips surrounding whitespace: write-then-read returns `trim v`;
the round-trip returns exactly `v` iff `v` has no leading or trailing
whitespace; and a successful read never returns a string with surrounding
whitespace. -/
theorem c10_ledger_trim_roundtrip :
    (∀ (d : DestState) (v : Str),
      getInstalledVersion (writeVersion d v) = some (jsTrim v)) ∧
    (∀ (d : DestState) (v : Str),
      getInstalledVersion (writeVersion d v) = some v ↔ noSurroundWS v = true) ∧
    (∀ (d : DestState) (t : Str),
      getInstalledVersion d = some t → noSurroundWS t = true) := by
  refine ⟨fun d v => rfl, fun d v => ?_, fun d t h => ?_⟩
  · have h0 : getInstalledVersion (writeVersion d v) = some (jsTrim v) := rfl
    rw [h0, Option.some_inj]
    exact jsTrim_eq_self_iff v
  · unfold getInstalledVersion at h
    obtain ⟨s, _, hst⟩ := Option.map_eq_some'.mp h
    rw [← hst]
    exact noSurroundWS_jsTrim s

/-- A destination whose ledger holds a version padded with whitespace. -/
def c10dest : DestState := ⟨none, none, some " 1.0.0 ".data, [], true⟩

theorem c10_witness : noSurroundWS "1.0.0".data = true :=
  c10_ledger_trim_roundtrip.2.2 c10dest "1.0.0".data (by decide)

end FCA
